import Mathlib

/-
Verification of the stepwise frontier-management cores of the
uninformed-search visualizer: depth-first search, depth-limited search,
uniform-cost search on a fixed 7-node graph, and the 8-puzzle solver
(BFS / DFS / A*).  Each variant is embedded as a state-transition
function translated from the corresponding React component; the UI
rendering is out of scope.  A step that would raise a TypeError in the
original (a node lookup returning undefined followed by a property
access) is modelled as the return value none.
-/

set_option maxRecDepth 4000

/-- Insertion into a JS Set modelled on insertion-ordered lists: append the
element only when it is not yet present. -/
def setAdd (l : List String) (x : String) : List String :=
  if l.contains x then l else l ++ [x]

/-- Insert one element into a key-sorted list, before the first element of
larger-or-equal key; the building block of the stable sort below. -/
def insertByKey {α : Type} (key : α → Nat) (x : α) : List α → List α
  | [] => [x]
  | y :: ys =>
    if key x ≤ key y then x :: y :: ys else y :: insertByKey key x ys

/-- Stable insertion sort by ascending key, modelling the JS
Array.prototype.sort (stable per the ECMAScript specification) with a
subtraction comparator on the key. -/
def sortByKey {α : Type} (key : α → Nat) : List α → List α
  | [] => []
  | x :: xs => insertByKey key x (sortByKey key xs)

namespace DFS

/-- Graph node of the DFS component: identifier, display coordinates and the
declared neighbor list. -/
structure Node where
  id : String
  x : Nat
  y : Nat
  neighbors : List String
deriving DecidableEq

/-- The hard-coded 7-node sample graph of the DFS component. -/
def graph : List Node :=
  [ ⟨"A", 100, 50, ["B", "C"]⟩,
    ⟨"B", 50, 150, ["A", "D", "E"]⟩,
    ⟨"C", 150, 150, ["A", "F"]⟩,
    ⟨"D", 25, 250, ["B"]⟩,
    ⟨"E", 75, 250, ["B", "G"]⟩,
    ⟨"F", 175, 250, ["C", "G"]⟩,
    ⟨"G", 125, 350, ["E", "F"]⟩ ]

/-- The GraphState record of the DFS component. -/
structure GraphState where
  visited : List String
  stack : List String
  current : Option String
  path : List String
  step : Nat
deriving DecidableEq

/-- Full session: the GraphState together with the isPlaying and isComplete
flags held in separate useState hooks. -/
structure Session where
  state : GraphState
  isPlaying : Bool
  isComplete : Bool
deriving DecidableEq

def target : String := "G"

def initState : GraphState :=
  { visited := [], stack := ["A"], current := none, path := [], step := 0 }

def initSession : Session :=
  { state := initState, isPlaying := false, isComplete := false }

/-- The reset handler: replaces the session by the literal initial state and
clears both flags, ignoring the previous session. -/
def reset (_s : Session) : Session := initSession

def findNode (id : String) : Option Node :=
  graph.find? (fun n => n.id == id)

/-- One invocation of the DFS step handler.  Mirrors the source line by
line: guard on empty stack or completion, pop the top (last array element),
mark visited, push the unvisited not-already-stacked neighbors in reverse
declared order, append the popped node to the path.  Returns none exactly
when the source would dereference an undefined node lookup. -/
def step (s : Session) : Option Session :=
  if s.state.stack.length = 0 ∨ s.isComplete = true then some s else
  match s.state.stack.getLast? with
  | none => some s
  | some current =>
    match findNode current with
    | none => none
    | some currentNode =>
      let newStack := s.state.stack.dropLast
      let newVisited := setAdd s.state.visited current
      let unvisitedNeighbors :=
        (currentNode.neighbors.filter
          (fun nb => !newVisited.contains nb && !newStack.contains nb)).reverse
      let finalStack := newStack ++ unvisitedNeighbors
      some
        { state :=
            { visited := newVisited
              stack := finalStack
              current := some current
              path := s.state.path ++ [current]
              step := s.state.step + 1 }
          isComplete := if current == target then true else s.isComplete
          isPlaying := if current == target then false else s.isPlaying }

/-- The session after n manual step triggers on a fresh session. -/
def run : Nat → Option Session
  | 0 => some initSession
  | n + 1 => (run n).bind step

/-- Deduplication invariant of a DFS session: the stack holds no duplicate
node id, no stacked node is already visited, and the visited list holds no
duplicates. -/
def Inv (s : Session) : Prop :=
  s.state.stack.Nodup ∧ (∀ x ∈ s.state.stack, x ∉ s.state.visited) ∧
    s.state.visited.Nodup

/-- Sessions obtainable from the fresh session by step invocations. -/
inductive Reachable : Session → Prop
  | init : Reachable initSession
  | next {s s' : Session} : Reachable s → step s = some s' → Reachable s'

end DFS

namespace DLS

/-- Graph node of the depth-limited search component. -/
structure Node where
  id : String
  x : Nat
  y : Nat
  neighbors : List String
deriving DecidableEq

/-- The hard-coded 7-node sample graph of the DLS component (identical
adjacency to the DFS one). -/
def graph : List Node :=
  [ ⟨"A", 100, 50, ["B", "C"]⟩,
    ⟨"B", 50, 150, ["A", "D", "E"]⟩,
    ⟨"C", 150, 150, ["A", "F"]⟩,
    ⟨"D", 25, 250, ["B"]⟩,
    ⟨"E", 75, 250, ["B", "G"]⟩,
    ⟨"F", 175, 250, ["C", "G"]⟩,
    ⟨"G", 125, 350, ["E", "F"]⟩ ]

/-- A StackItem of the DLS frontier: node id, depth and the per-branch
partial path. -/
structure StackItem where
  nodeId : String
  depth : Nat
  path : List String
deriving DecidableEq

/-- The GraphState record of the DLS component. -/
structure GraphState where
  visited : List String
  stack : List StackItem
  current : Option String
  currentDepth : Nat
  currentPath : List String
  step : Nat
  cutoffReached : Bool
deriving DecidableEq

/-- Full session: GraphState plus the isPlaying and isComplete flags. -/
structure Session where
  state : GraphState
  isPlaying : Bool
  isComplete : Bool
deriving DecidableEq

def target : String := "G"

def initState : GraphState :=
  { visited := [], stack := [⟨"A", 0, ["A"]⟩], current := none,
    currentDepth := 0, currentPath := [], step := 0, cutoffReached := false }

def initSession : Session :=
  { state := initState, isPlaying := false, isComplete := false }

/-- The reset handler: replaces the session by the literal initial state
(cutoffReached cleared) and clears both flags. -/
def reset (_s : Session) : Session := initSession

def findNode (id : String) : Option Node :=
  graph.find? (fun n => n.id == id)

/-- One invocation of the DLS step handler: pop the top stack item, mark
visited, and either push the unvisited not-already-stacked neighbors at
depth+1 (when the popped depth is below the limit) or set the sticky
cutoffReached flag when some neighbor is still unvisited. -/
def step (depthLimit : Nat) (s : Session) : Option Session :=
  if s.state.stack.length = 0 ∨ s.isComplete = true then some s else
  match s.state.stack.getLast? with
  | none => some s
  | some currentItem =>
    match findNode currentItem.nodeId with
    | none => none
    | some currentNode =>
      let newStack := s.state.stack.dropLast
      let newVisited := setAdd s.state.visited currentItem.nodeId
      let pushed :=
        if currentItem.depth < depthLimit then
          ((currentNode.neighbors.filter
              (fun nb => !newVisited.contains nb &&
                !(newStack.any (fun item => item.nodeId == nb)))).reverse).map
            (fun nb => StackItem.mk nb (currentItem.depth + 1)
              (currentItem.path ++ [nb]))
        else []
      let cutoff :=
        if currentItem.depth < depthLimit then s.state.cutoffReached
        else if currentNode.neighbors.any (fun nb => !newVisited.contains nb)
          then true else s.state.cutoffReached
      some
        { state :=
            { visited := newVisited
              stack := newStack ++ pushed
              current := some currentItem.nodeId
              currentDepth := currentItem.depth
              currentPath := currentItem.path
              step := s.state.step + 1
              cutoffReached := cutoff }
          isComplete :=
            if currentItem.nodeId == target then true else s.isComplete
          isPlaying :=
            if currentItem.nodeId == target then false else s.isPlaying }

/-- The session after n manual step triggers with a fixed depth limit. -/
def run (depthLimit : Nat) : Nat → Option Session
  | 0 => some initSession
  | n + 1 => (run depthLimit n).bind (step depthLimit)

/-- Deduplication invariant of a DLS session: stacked node ids are pairwise
distinct, no stacked node id is already visited, and the visited list holds
no duplicates. -/
def Inv (s : Session) : Prop :=
  (s.state.stack.map (fun item => item.nodeId)).Nodup ∧
    (∀ item ∈ s.state.stack, item.nodeId ∉ s.state.visited) ∧
    s.state.visited.Nodup

/-- Sessions obtainable from the fresh session by step invocations under a
fixed depth limit. -/
inductive Reachable (depthLimit : Nat) : Session → Prop
  | init : Reachable depthLimit initSession
  | next {s s' : Session} : Reachable depthLimit s →
      step depthLimit s = some s' → Reachable depthLimit s'

end DLS

namespace UCS

/-- Graph node of the uniform-cost search component: each neighbor entry
pairs the neighbor id with the edge cost. -/
structure Node where
  id : String
  x : Nat
  y : Nat
  neighbors : List (String × Nat)
deriving DecidableEq

/-- The hard-coded weighted 7-node sample graph of the UCS component. -/
def graph : List Node :=
  [ ⟨"A", 100, 50, [("B", 4), ("C", 2)]⟩,
    ⟨"B", 50, 150, [("A", 4), ("D", 5), ("E", 1)]⟩,
    ⟨"C", 150, 150, [("A", 2), ("F", 3)]⟩,
    ⟨"D", 25, 250, [("B", 5)]⟩,
    ⟨"E", 75, 250, [("B", 1), ("G", 2)]⟩,
    ⟨"F", 175, 250, [("C", 3), ("G", 4)]⟩,
    ⟨"G", 125, 350, [("E", 2), ("F", 4)]⟩ ]

/-- A PriorityQueueItem: node id, cumulative cost and the path from the
start node. -/
structure PriorityQueueItem where
  nodeId : String
  cost : Nat
  path : List String
deriving DecidableEq

/-- The GraphState record of the UCS component; costs is the per-node
best-known-cost JS Map, modelled as an association list. -/
structure GraphState where
  visited : List String
  priorityQueue : List PriorityQueueItem
  current : Option String
  currentCost : Nat
  currentPath : List String
  step : Nat
  costs : List (String × Nat)
deriving DecidableEq

/-- Full session: GraphState plus the isPlaying and isComplete flags. -/
structure Session where
  state : GraphState
  isPlaying : Bool
  isComplete : Bool
deriving DecidableEq

def target : String := "G"

def initState : GraphState :=
  { visited := [], priorityQueue := [⟨"A", 0, ["A"]⟩], current := none,
    currentCost := 0, currentPath := [], step := 0, costs := [("A", 0)] }

def initSession : Session :=
  { state := initState, isPlaying := false, isComplete := false }

/-- The reset handler: replaces the session by the literal initial state
and clears both flags. -/
def reset (_s : Session) : Session := initSession

def findNode (id : String) : Option Node :=
  graph.find? (fun n => n.id == id)

/-- JS Map.set on the association list: overwrite the binding when the key
is present, append it otherwise. -/
def mapSet (k : String) (v : Nat) : List (String × Nat) → List (String × Nat)
  | [] => [(k, v)]
  | (k1, v1) :: rest =>
    if k1 = k then (k, v) :: rest else (k1, v1) :: mapSet k v rest

/-- Stable ascending sort of the priority queue by cumulative cost,
mirroring the comparator (a, b) => a.cost - b.cost. -/
def sortByCost : List PriorityQueueItem → List PriorityQueueItem :=
  sortByKey (fun item => item.cost)

/-- The truthiness test of the relaxation guard, translated from
!existingCost || newCost < existingCost: an absent binding and a binding
of 0 are both falsy, so both enable the relaxation. -/
def shouldRelax (existing : Option Nat) (newCost : Nat) : Bool :=
  match existing with
  | none => true
  | some c => c == 0 || newCost < c

/-- Processing of a single neighbor edge inside the forEach: skip visited
neighbors; otherwise, when the relaxation guard fires, record the new best
cost, drop every queue entry for that neighbor and push the new entry. -/
def relaxNeighbor (visited : List String) (currentItem : PriorityQueueItem)
    (acc : List PriorityQueueItem × List (String × Nat))
    (nb : String × Nat) : List PriorityQueueItem × List (String × Nat) :=
  if visited.contains nb.1 then acc else
  if shouldRelax (acc.2.lookup nb.1) (currentItem.cost + nb.2) then
    ((acc.1.filter (fun item => !(item.nodeId == nb.1))) ++
        [⟨nb.1, currentItem.cost + nb.2, currentItem.path ++ [nb.1]⟩],
      mapSet nb.1 (currentItem.cost + nb.2) acc.2)
  else acc

/-- One invocation of the UCS step handler: sort the queue by ascending
cost, shift the cheapest item, mark it visited, then run the relaxation
over its neighbor list. -/
def step (s : Session) : Option Session :=
  if s.state.priorityQueue.length = 0 ∨ s.isComplete = true then some s else
  match sortByCost s.state.priorityQueue with
  | [] => some s
  | currentItem :: remainingQueue =>
    let newVisited := setAdd s.state.visited currentItem.nodeId
    match findNode currentItem.nodeId with
    | none => none
    | some currentNode =>
      let result := currentNode.neighbors.foldl
        (relaxNeighbor newVisited currentItem) (remainingQueue, s.state.costs)
      some
        { state :=
            { visited := newVisited
              priorityQueue := result.1
              current := some currentItem.nodeId
              currentCost := currentItem.cost
              currentPath := currentItem.path
              step := s.state.step + 1
              costs := result.2 }
          isComplete :=
            if currentItem.nodeId == target then true else s.isComplete
          isPlaying :=
            if currentItem.nodeId == target then false else s.isPlaying }

/-- The session after n manual step triggers on a fresh session. -/
def run : Nat → Option Session
  | 0 => some initSession
  | n + 1 => (run n).bind step

/-- Deduplication invariant of a UCS session: queued node ids are pairwise
distinct, no queued node id is already visited, and the visited list holds
no duplicates. -/
def Inv (s : Session) : Prop :=
  (s.state.priorityQueue.map (fun item => item.nodeId)).Nodup ∧
    (∀ item ∈ s.state.priorityQueue, item.nodeId ∉ s.state.visited) ∧
    s.state.visited.Nodup

/-- Sessions obtainable from the fresh session by step invocations. -/
inductive Reachable : Session → Prop
  | init : Reachable initSession
  | next {s s' : Session} : Reachable s → step s = some s' → Reachable s'

/-- Weight of the directed edge from u to v read off the hard-coded
weighted graph. -/
def edgeCost (u v : String) : Option Nat :=
  match findNode u with
  | none => none
  | some nd => nd.neighbors.lookup v

/-- Cost of the walk that starts at u and visits the listed nodes in
order, provided every hop is an edge of the graph. -/
def walkCost : String → List String → Option Nat
  | _, [] => some 0
  | u, v :: rest =>
    match edgeCost u v with
    | none => none
    | some w =>
      match walkCost v rest with
      | none => none
      | some c => some (w + c)

/-- Shortest-distance certificate for the weighted sample graph: a
potential per node, verified below to be slack on every edge, which lower
bounds the cost of every walk. -/
def pot (u : String) : Nat :=
  if u = "A" then 0 else if u = "B" then 4 else if u = "C" then 2
  else if u = "D" then 9 else if u = "E" then 5 else if u = "F" then 5
  else if u = "G" then 7 else 0

end UCS

namespace Puzzle

/-- The goal board of the 8-puzzle: tiles 1..8 in row-major order, blank
last. -/
def goalState : List Nat := [1, 2, 3, 4, 5, 6, 7, 8, 0]

/-- The hard-coded initial board of the component. -/
def initialState : List Nat := [1, 2, 3, 4, 0, 5, 7, 8, 6]

/-- A PuzzleState record: board, blank position, cost (moves so far),
Manhattan heuristic, move-label path and depth. -/
structure PuzzleState where
  board : List Nat
  emptyPos : Nat
  cost : Nat
  heuristic : Nat
  path : List String
  depth : Nat
deriving DecidableEq

/-- The three selectable algorithms of the 8-puzzle solver. -/
inductive Alg where
  | bfs
  | dfs
  | astar
deriving DecidableEq

/-- The SearchState record of the component. -/
structure SearchState where
  openList : List PuzzleState
  closedList : List PuzzleState
  current : Option PuzzleState
  step : Nat
  algorithm : Alg
deriving DecidableEq

/-- Full component state: the displayed board, the search state and the
three lifecycle flags. -/
structure Session where
  puzzleState : List Nat
  searchState : SearchState
  isPlaying : Bool
  isComplete : Bool
  isSolving : Bool
deriving DecidableEq

def initSession : Session :=
  { puzzleState := initialState
    searchState :=
      { openList := [], closedList := [], current := none, step := 0,
        algorithm := Alg.bfs }
    isPlaying := false
    isComplete := false
    isSolving := false }

/-- Manhattan-distance heuristic: for each of the nine cells holding a
non-blank tile, the row plus column distance from the goal position of
that tile. -/
def manhattanDistance (board : List Nat) : Nat :=
  (List.range 9).foldl
    (fun distance i =>
      let v := board.getD i 0
      if v ≠ 0 then
        let goalPos := goalState.indexOf v
        distance + ((i : Int) / 3 - (goalPos : Int) / 3).natAbs +
          ((i : Int) % 3 - (goalPos : Int) % 3).natAbs
      else distance)
    0

/-- The goal test: index-wise equality of the board with the goal board,
iterated over the indices of the tested board. -/
def isGoalState (board : List Nat) : Bool :=
  (List.range board.length).all (fun i => board.get? i == goalState.get? i)

/-- Index-wise equality of two boards, iterated over the indices of the
first board (the shape of Array.prototype.every in the source). -/
def boardsEqual (board1 board2 : List Nat) : Bool :=
  (List.range board1.length).all (fun i => board1.get? i == board2.get? i)

/-- Swap of the entries at two positions, from the destructuring
assignment in the source. -/
def listSwap (l : List Nat) (i j : Nat) : List Nat :=
  (l.set i (l.getD j 0)).set j (l.getD i 0)

/-- The four candidate blank moves in source order. -/
def moves : List (Int × Int × String) :=
  [(-1, 0, "UP"), (1, 0, "DOWN"), (0, -1, "LEFT"), (0, 1, "RIGHT")]

/-- Position reached by moving the blank at emptyPos one step along
move: new row times 3 plus new column, computed in Int like the source
and brought back to Nat once known in bounds. -/
def movedPos (emptyPos : Nat) (move : Int × Int × String) : Nat :=
  (((emptyPos : Int) / 3 + move.1) * 3 +
    ((emptyPos : Int) % 3 + move.2.1)).toNat

/-- The in-bounds test of a candidate blank move. -/
def moveInBounds (emptyPos : Nat) (move : Int × Int × String) : Prop :=
  0 ≤ (emptyPos : Int) / 3 + move.1 ∧ (emptyPos : Int) / 3 + move.1 < 3 ∧
    0 ≤ (emptyPos : Int) % 3 + move.2.1 ∧
    (emptyPos : Int) % 3 + move.2.1 < 3

instance (emptyPos : Nat) (move : Int × Int × String) :
    Decidable (moveInBounds emptyPos move) := by
  unfold moveInBounds
  infer_instance

/-- Successor generation: each in-bounds blank move yields the swapped
board with incremented cost and depth, the appended move label and a
recomputed heuristic. -/
def getSuccessors (state : PuzzleState) : List PuzzleState :=
  moves.foldl
    (fun successors move =>
      if moveInBounds state.emptyPos move then
        successors ++
          [{ board := listSwap state.board state.emptyPos
               (movedPos state.emptyPos move)
             emptyPos := movedPos state.emptyPos move
             cost := state.cost + 1
             heuristic := manhattanDistance (listSwap state.board
               state.emptyPos (movedPos state.emptyPos move))
             path := state.path ++ [move.2.2]
             depth := state.depth + 1 }]
      else successors)
    []

/-- The resetSearch handler: clear the open and closed lists, the current
record and the step counter, keep the selected algorithm, clear the three
flags, and leave the displayed board untouched. -/
def resetSearch (s : Session) : Session :=
  { puzzleState := s.puzzleState
    searchState :=
      { openList := [], closedList := [], current := none, step := 0,
        algorithm := s.searchState.algorithm }
    isPlaying := false
    isComplete := false
    isSolving := false }

/-- The startSolve handler: a no-op when the displayed board is already
the goal; otherwise seed the open list with the displayed board and raise
the isSolving flag. -/
def startSolve (s : Session) : Session :=
  if isGoalState s.puzzleState then s else
  let emptyPos := s.puzzleState.indexOf 0
  { puzzleState := s.puzzleState
    searchState :=
      { openList :=
          [{ board := s.puzzleState
             emptyPos := emptyPos
             cost := 0
             heuristic := manhattanDistance s.puzzleState
             path := []
             depth := 0 }]
        closedList := []
        current := none
        step := 0
        algorithm := s.searchState.algorithm }
    isPlaying := s.isPlaying
    isComplete := false
    isSolving := true }

/-- Frontier selection per algorithm: shift for BFS, pop for DFS, and a
stable ascending sort by cost + heuristic followed by a shift for A*.
Returns the selected record and the remaining open list. -/
def select (alg : Alg) (openList : List PuzzleState) :
    Option (PuzzleState × List PuzzleState) :=
  match alg with
  | Alg.bfs =>
    match openList with
    | [] => none
    | x :: xs => some (x, xs)
  | Alg.dfs =>
    match openList.getLast? with
    | none => none
    | some x => some (x, openList.dropLast)
  | Alg.astar =>
    match sortByKey (fun st => st.cost + st.heuristic) openList with
    | [] => none
    | x :: xs => some (x, xs)

/-- The dedup-and-append fold over generated successors: a successor is
dropped when an equal board is already in the new closed list or in the
open list accumulated so far, and appended otherwise. -/
def pushSuccessors (closedList : List PuzzleState)
    (openList : List PuzzleState) (successors : List PuzzleState) :
    List PuzzleState :=
  successors.foldl
    (fun acc successor =>
      let inClosed := closedList.any
        (fun st => boardsEqual st.board successor.board)
      let inOpen := acc.any (fun st => boardsEqual st.board successor.board)
      if !inClosed && !inOpen then acc ++ [successor] else acc)
    openList

/-- One invocation of the 8-puzzle step handler: guard, select the next
record per algorithm, append it to the closed list, finish when it is the
goal, and otherwise push its deduplicated successors. -/
def step (s : Session) : Session :=
  if s.searchState.openList.length = 0 ∨ s.isComplete = true then s else
  match select s.searchState.algorithm s.searchState.openList with
  | none => s
  | some (nextState, newOpenList) =>
    let newClosedList := s.searchState.closedList ++ [nextState]
    if isGoalState nextState.board then
      { s with
          searchState :=
            { openList := newOpenList
              closedList := newClosedList
              current := some nextState
              step := s.searchState.step + 1
              algorithm := s.searchState.algorithm }
          isComplete := true
          isPlaying := false }
    else
      { s with
          searchState :=
            { openList :=
                pushSuccessors newClosedList newOpenList
                  (getSuccessors nextState)
              closedList := newClosedList
              current := some nextState
              step := s.searchState.step + 1
              algorithm := s.searchState.algorithm } }

/-- The session after n manual step triggers once a solve was started on
the hard-coded initial board. -/
def run (alg : Alg) : Nat → Session
  | 0 => startSolve { initSession with searchState :=
      { initSession.searchState with algorithm := alg } }
  | n + 1 => step (run alg n)

/-- Deduplication invariant of a puzzle session: every tracked board has
the nine cells of a 3 by 3 board, and the boards across the open and
closed lists are pairwise distinct. -/
def Inv (s : Session) : Prop :=
  (∀ st ∈ s.searchState.openList ++ s.searchState.closedList,
      st.board.length = 9) ∧
    ((s.searchState.openList ++ s.searchState.closedList).map
        (fun st => st.board)).Nodup

/-- Sessions obtainable by step invocations after starting a solve on a
nine-cell board. -/
inductive Reachable (board0 : List Nat) (alg : Alg) : Session → Prop
  | init : Reachable board0 alg
      (startSolve { initSession with
        puzzleState := board0
        searchState := { initSession.searchState with algorithm := alg } })
  | next {s : Session} : Reachable board0 alg s → Reachable board0 alg (step s)

end Puzzle

theorem mem_setAdd (l : List String) (x y : String) :
    y ∈ setAdd l x ↔ y ∈ l ∨ y = x := by
  unfold setAdd
  split
  · rename_i h
    constructor
    · exact Or.inl
    · rintro (hy | rfl)
      · exact hy
      · simpa using h
  · simp

theorem setAdd_nodup (l : List String) (x : String) (h : l.Nodup) :
    (setAdd l x).Nodup := by
  unfold setAdd
  split
  · exact h
  · rename_i hx
    simpa [List.nodup_append] using ⟨h, by simpa using hx⟩

theorem setAdd_length_of_not_mem (l : List String) (x : String)
    (h : ¬ x ∈ l) : (setAdd l x).length = l.length + 1 := by
  unfold setAdd
  rw [if_neg (by simpa using h)]
  simp

theorem setAdd_sublist (l : List String) (x : String) :
    l.Sublist (setAdd l x) := by
  unfold setAdd
  split
  · exact List.Sublist.refl l
  · exact List.sublist_append_left l [x]

theorem insertByKey_perm {α : Type} (key : α → Nat) (x : α) (l : List α) :
    (insertByKey key x l).Perm (x :: l) := by
  induction l with
  | nil => exact List.Perm.refl _
  | cons y ys ih =>
    unfold insertByKey
    split
    · exact List.Perm.refl _
    · exact (List.Perm.cons y ih).trans (List.Perm.swap x y ys)

theorem sortByKey_perm {α : Type} (key : α → Nat) (l : List α) :
    (sortByKey key l).Perm l := by
  induction l with
  | nil => exact List.Perm.refl _
  | cons x xs ih =>
    exact (insertByKey_perm key x (sortByKey key xs)).trans (List.Perm.cons x ih)

/-- A list with a known last element splits into its dropLast part and that
element. -/
theorem eq_dropLast_append {α : Type} {l : List α} {x : α}
    (h : l.getLast? = some x) : l = l.dropLast ++ [x] :=
  (List.dropLast_append_getLast? x h).symm

theorem getLast_not_mem_dropLast {α : Type} {l : List α} {x : α}
    (h : l.getLast? = some x) (hnd : l.Nodup) : x ∉ l.dropLast := by
  have hsplit := eq_dropLast_append h
  rw [hsplit] at hnd
  simp [List.nodup_append] at hnd
  exact hnd.2

theorem getLast_mem_of_getLast? {α : Type} {l : List α} {x : α}
    (h : l.getLast? = some x) : x ∈ l := by
  rw [eq_dropLast_append h]
  simp

theorem list_lookup_mem {β : Type} {l : List (String × β)} {v : String}
    {w : β} (h : l.lookup v = some w) : (v, w) ∈ l := by
  induction l with
  | nil => cases h
  | cons p rest ih =>
    obtain ⟨k, b⟩ := p
    by_cases hk : v = k
    · subst hk
      simp [List.lookup] at h
      simp [h]
    · have hbeq : (v == k) = false := by simpa using hk
      simp [List.lookup, hbeq] at h
      exact List.mem_cons_of_mem _ (ih h)

/-- The potential certificate is slack on every edge of the weighted
graph. -/
theorem pot_edge {u v : String} {w : Nat} (h : UCS.edgeCost u v = some w) :
    UCS.pot v ≤ UCS.pot u + w := by
  unfold UCS.edgeCost at h
  cases hf : UCS.findNode u with
  | none => rw [hf] at h; cases h
  | some nd =>
    rw [hf] at h
    unfold UCS.findNode at hf
    have hmem : nd ∈ UCS.graph := List.mem_of_find?_eq_some hf
    have hu : u = nd.id := by
      have hid := List.find?_some hf
      simp at hid
      exact hid.symm
    subst hu
    have hp : (v, w) ∈ nd.neighbors := list_lookup_mem h
    have hall : ∀ p ∈ nd.neighbors, UCS.pot p.1 ≤ UCS.pot nd.id + p.2 := by
      clear h hp
      fin_cases hmem <;> decide
    exact hall (v, w) hp

/-- Every walk in the weighted graph costs at least the potential drop
from its start to its end. -/
theorem walk_lower :
    ∀ (l : List String) (u : String) (c : Nat),
      UCS.walkCost u l = some c → UCS.pot (l.getLastD u) ≤ UCS.pot u + c := by
  intro l
  induction l with
  | nil =>
    intro u c h
    simp [UCS.walkCost] at h
    simp [h.symm]
  | cons v rest ih =>
    intro u c h
    unfold UCS.walkCost at h
    cases he : UCS.edgeCost u v with
    | none => rw [he] at h; cases h
    | some w =>
      rw [he] at h
      cases hr : UCS.walkCost v rest with
      | none => rw [hr] at h; cases h
      | some c2 =>
        rw [hr] at h
        injection h with h2
        have h3 := pot_edge he
        have h4 := ih v c2 hr
        rw [List.getLastD_cons]
        omega

/-- C1 counterexample: the first completed UCS session (after the sixth
step) reports total cost 7 but path A, B, E, G, which differs from the
claimed path A, C, F, G. -/
theorem C1_ucs_claimed_path_refuted :
    ((UCS.run 6).map (fun s =>
        (s.isComplete, s.state.currentCost, s.state.currentPath)) =
      some (true, 7, ["A", "B", "E", "G"])) ∧
    ((["A", "B", "E", "G"] : List String) ≠ ["A", "C", "F", "G"]) := by
  decide

/-- C1 amended: the fresh UCS session pops A, C, B, F, E over the first
five steps without completing, and the sixth step pops the goal G in
ascending cost order, completing with total cost 7 and path A, B, E, G;
the walk A, B, E, G indeed costs 7 in the weighted graph, and every walk
from A to G costs at least 7, so the reported value is the exact minimal
path cost. -/
theorem C1_ucs_optimal_run :
    ((UCS.run 1).map (fun s => (s.state.current, s.isComplete)) =
      some (some "A", false)) ∧
    ((UCS.run 2).map (fun s => (s.state.current, s.isComplete)) =
      some (some "C", false)) ∧
    ((UCS.run 3).map (fun s => (s.state.current, s.isComplete)) =
      some (some "B", false)) ∧
    ((UCS.run 4).map (fun s => (s.state.current, s.isComplete)) =
      some (some "F", false)) ∧
    ((UCS.run 5).map (fun s => (s.state.current, s.isComplete)) =
      some (some "E", false)) ∧
    ((UCS.run 6).map (fun s =>
        (s.state.current, s.isComplete, s.state.currentCost,
          s.state.currentPath)) =
      some (some "G", true, 7, ["A", "B", "E", "G"])) ∧
    UCS.walkCost "A" ["B", "E", "G"] = some 7 ∧
    (∀ (l : List String) (c : Nat), UCS.walkCost "A" l = some c →
      l.getLastD "A" = "G" → 7 ≤ c) := by
  refine ⟨by decide, by decide, by decide, by decide, by decide, by decide,
    by decide, ?_⟩
  intro l c h hlast
  have hlow := walk_lower l "A" c h
  rw [hlast] at hlow
  have h7 : UCS.pot "G" = 7 := by decide
  have h0 : UCS.pot "A" = 0 := by decide
  omega

/-- Witness for C1 on the walk A, C, F, G named by the original claim: it
is a real walk of cost 9, and the minimality bound applies to it. -/
theorem C1_ucs_optimal_run_witness :
    UCS.walkCost "A" ["C", "F", "G"] = some 9 ∧ 7 ≤ 9 :=
  ⟨by decide, C1_ucs_optimal_run.2.2.2.2.2.2.2 ["C", "F", "G"] 9 (by decide)
    (by decide)⟩

/-- C2: on the fresh DFS session the successive step invocations pop
exactly A, B, D, E, G; after four steps the step counter is 4 and the
session is not complete; the fifth invocation (made at step counter 4)
pops the goal G, completes the session, and the recorded path equals the
append sequence A, B, D, E, G. -/
theorem C2_dfs_expansion_order :
    ((DFS.run 1).map (fun s => s.state.current) = some (some "A")) ∧
    ((DFS.run 2).map (fun s => s.state.current) = some (some "B")) ∧
    ((DFS.run 3).map (fun s => s.state.current) = some (some "D")) ∧
    ((DFS.run 4).map (fun s => (s.state.current, s.state.step, s.isComplete)) =
      some (some "E", 4, false)) ∧
    ((DFS.run 5).map (fun s => (s.state.current, s.isComplete, s.state.path)) =
      some (some "G", true, ["A", "B", "D", "E", "G"])) := by
  decide

/-- C3: with depth limit 0 the first DLS step visits A, pushes nothing and
sets cutoffReached; and the flag is sticky: any step invocation from a
session with cutoffReached set leaves it set. -/
theorem C3_dls_cutoff_sticky :
    ((DLS.run 0 1).map (fun s =>
        (s.state.visited, s.state.stack, s.state.cutoffReached)) =
      some (["A"], [], true)) ∧
    (∀ (limit : Nat) (s s' : DLS.Session), s.state.cutoffReached = true →
      DLS.step limit s = some s' → s'.state.cutoffReached = true) := by
  constructor
  · decide
  · intro limit s s' hc hstep
    unfold DLS.step at hstep
    split at hstep
    · injection hstep with h
      subst h
      exact hc
    · split at hstep
      · injection hstep with h
        subst h
        exact hc
      · split at hstep
        · cases hstep
        · injection hstep with h
          subst h
          simp only
          split
          · exact hc
          · split
            · rfl
            · exact hc

/-- Witness for C3 at a concrete cutoff session: stepping it keeps the
flag set. -/
theorem C3_dls_cutoff_sticky_witness :
    (⟨⟨["A"], [], some "A", 0, ["A"], 1, true⟩, false, false⟩ :
        DLS.Session).state.cutoffReached = true :=
  C3_dls_cutoff_sticky.2 0
    ⟨⟨["A"], [], some "A", 0, ["A"], 1, true⟩, false, false⟩
    ⟨⟨["A"], [], some "A", 0, ["A"], 1, true⟩, false, false⟩
    rfl (by decide)

/-- C5: for each of the four variants, a step invocation on a session with
an empty frontier or an already-set completion flag returns the session
unchanged and raises no exception. -/
theorem C5_noop_guards :
    (∀ s : DFS.Session, s.state.stack = [] ∨ s.isComplete = true →
      DFS.step s = some s) ∧
    (∀ (limit : Nat) (s : DLS.Session),
      s.state.stack = [] ∨ s.isComplete = true →
      DLS.step limit s = some s) ∧
    (∀ s : UCS.Session, s.state.priorityQueue = [] ∨ s.isComplete = true →
      UCS.step s = some s) ∧
    (∀ s : Puzzle.Session, s.searchState.openList = [] ∨ s.isComplete = true →
      Puzzle.step s = s) := by
  refine ⟨?_, ?_, ?_, ?_⟩
  · intro s h
    have hg : s.state.stack.length = 0 ∨ s.isComplete = true := by
      rcases h with h | h
      · exact Or.inl (by simp [h])
      · exact Or.inr h
    simp only [DFS.step, if_pos hg]
  · intro limit s h
    have hg : s.state.stack.length = 0 ∨ s.isComplete = true := by
      rcases h with h | h
      · exact Or.inl (by simp [h])
      · exact Or.inr h
    simp only [DLS.step, if_pos hg]
  · intro s h
    have hg : s.state.priorityQueue.length = 0 ∨ s.isComplete = true := by
      rcases h with h | h
      · exact Or.inl (by simp [h])
      · exact Or.inr h
    simp only [UCS.step, if_pos hg]
  · intro s h
    have hg : s.searchState.openList.length = 0 ∨ s.isComplete = true := by
      rcases h with h | h
      · exact Or.inl (by simp [h])
      · exact Or.inr h
    simp only [Puzzle.step, if_pos hg]

/-- Witness for C5 on a concrete already-complete DFS session. -/
theorem C5_noop_guards_witness :
    DFS.step ⟨DFS.initState, false, true⟩ = some ⟨DFS.initState, false, true⟩ :=
  C5_noop_guards.1 ⟨DFS.initState, false, true⟩ (Or.inr rfl)

/-- C8: the reset of each graph variant rebuilds the literal initial
session from any session, hence is idempotent; the puzzle resetSearch
restores the initial empty frontier, empty closed list, cleared current
record, step counter 0 and lowered flags, and is idempotent. -/
theorem C8_reset_idempotent :
    (∀ s : DFS.Session, DFS.reset s = DFS.initSession ∧
      DFS.reset (DFS.reset s) = DFS.reset s) ∧
    (∀ s : DLS.Session, DLS.reset s = DLS.initSession ∧
      DLS.reset (DLS.reset s) = DLS.reset s) ∧
    (∀ s : UCS.Session, UCS.reset s = UCS.initSession ∧
      UCS.reset (UCS.reset s) = UCS.reset s) ∧
    (∀ s : Puzzle.Session,
      (Puzzle.resetSearch s).searchState.openList =
        Puzzle.initSession.searchState.openList ∧
      (Puzzle.resetSearch s).searchState.closedList =
        Puzzle.initSession.searchState.closedList ∧
      (Puzzle.resetSearch s).searchState.current =
        Puzzle.initSession.searchState.current ∧
      (Puzzle.resetSearch s).searchState.step =
        Puzzle.initSession.searchState.step ∧
      (Puzzle.resetSearch s).isComplete = false ∧
      (Puzzle.resetSearch s).isPlaying = false ∧
      Puzzle.resetSearch (Puzzle.resetSearch s) = Puzzle.resetSearch s) :=
  ⟨fun _ => ⟨rfl, rfl⟩, fun _ => ⟨rfl, rfl⟩, fun _ => ⟨rfl, rfl⟩,
    fun _ => ⟨rfl, rfl, rfl, rfl, rfl, rfl, rfl⟩⟩

/-- C10: the puzzle resetSearch clears exactly the search state and the
lifecycle flags while preserving the displayed board and the selected
algorithm. -/
theorem C10_resetSearch_frame (s : Puzzle.Session) :
    (Puzzle.resetSearch s).puzzleState = s.puzzleState ∧
    (Puzzle.resetSearch s).searchState.algorithm = s.searchState.algorithm ∧
    (Puzzle.resetSearch s).searchState.openList = [] ∧
    (Puzzle.resetSearch s).searchState.closedList = [] ∧
    (Puzzle.resetSearch s).searchState.current = none ∧
    (Puzzle.resetSearch s).searchState.step = 0 ∧
    (Puzzle.resetSearch s).isPlaying = false ∧
    (Puzzle.resetSearch s).isComplete = false ∧
    (Puzzle.resetSearch s).isSolving = false :=
  ⟨rfl, rfl, rfl, rfl, rfl, rfl, rfl, rfl, rfl⟩

theorem lookup_mapSet_self (l : List (String × Nat)) (k : String) (v : Nat) :
    (UCS.mapSet k v l).lookup k = some v := by
  induction l with
  | nil => simp [UCS.mapSet, List.lookup]
  | cons p rest ih =>
    obtain ⟨k1, v1⟩ := p
    by_cases h1 : k1 = k
    · simp [UCS.mapSet, h1, List.lookup]
    · have hbeq : (k == k1) = false := by
        simpa using fun hh : k = k1 => h1 hh.symm
      simp [UCS.mapSet, h1, List.lookup, hbeq, ih]

theorem lookup_mapSet_ne (l : List (String × Nat)) (k k' : String) (v : Nat)
    (hne : k' ≠ k) : (UCS.mapSet k v l).lookup k' = l.lookup k' := by
  induction l with
  | nil =>
    have hbeq : (k' == k) = false := by simpa using hne
    simp [UCS.mapSet, List.lookup, hbeq]
  | cons p rest ih =>
    obtain ⟨k1, v1⟩ := p
    by_cases h1 : k1 = k
    · subst h1
      have hbeq : (k' == k1) = false := by simpa using hne
      simp [UCS.mapSet, List.lookup, hbeq]
    · cases hb : (k' == k1) with
      | true => simp [UCS.mapSet, h1, List.lookup, hb]
      | false => simp [UCS.mapSet, h1, List.lookup, hb, ih]

theorem filter_nodeId_of_filter_ne (l : List UCS.PriorityQueueItem)
    (u v : String) (huv : u ≠ v) :
    (l.filter (fun it => !(it.nodeId == u))).filter
        (fun it => it.nodeId == v) =
      l.filter (fun it => it.nodeId == v) := by
  induction l with
  | nil => rfl
  | cons x rest ih =>
    by_cases hx : x.nodeId = u
    · have h1 : (x.nodeId == u) = true := by simpa using hx
      have h2 : (x.nodeId == v) = false := by
        simpa using fun hh : x.nodeId = v => huv (hx ▸ hh)
      simp [List.filter_cons, h1, h2, ih]
    · have h1 : (x.nodeId == u) = false := by simpa using hx
      by_cases hv : x.nodeId = v
      · have h2 : (x.nodeId == v) = true := by simpa using hv
        simp [List.filter_cons, h1, h2, ih]
      · have h2 : (x.nodeId == v) = false := by simpa using hv
        simp [List.filter_cons, h1, h2, ih]

theorem filter_nodeId_of_filter_self (l : List UCS.PriorityQueueItem)
    (v : String) :
    (l.filter (fun it => !(it.nodeId == v))).filter
        (fun it => it.nodeId == v) = [] := by
  induction l with
  | nil => rfl
  | cons x rest ih =>
    by_cases hx : x.nodeId = v
    · have h1 : (x.nodeId == v) = true := by simpa using hx
      simp [List.filter_cons, h1, ih]
    · have h1 : (x.nodeId == v) = false := by simpa using hx
      simp [List.filter_cons, h1, ih]

/-- The neighbor fold leaves the best-cost binding and the queue entries
of a node untouched while it processes edges towards other nodes. -/
theorem relax_fold_untouched (visited : List String)
    (cur : UCS.PriorityQueueItem) (v : String) :
    ∀ (L : List (String × Nat))
      (acc : List UCS.PriorityQueueItem × List (String × Nat)),
      (∀ p ∈ L, p.1 ≠ v) →
      (L.foldl (UCS.relaxNeighbor visited cur) acc).2.lookup v =
          acc.2.lookup v ∧
        (L.foldl (UCS.relaxNeighbor visited cur) acc).1.filter
            (fun it => it.nodeId == v) =
          acc.1.filter (fun it => it.nodeId == v) := by
  intro L
  induction L with
  | nil => intro acc _; exact ⟨rfl, rfl⟩
  | cons nb rest ih =>
    intro acc h
    have hnb : nb.1 ≠ v := h nb (List.mem_cons_self nb rest)
    have hrest : ∀ p ∈ rest, p.1 ≠ v :=
      fun p hp => h p (List.mem_cons_of_mem _ hp)
    rw [List.foldl_cons]
    have ihr := ih (UCS.relaxNeighbor visited cur acc nb) hrest
    have hstep :
        (UCS.relaxNeighbor visited cur acc nb).2.lookup v =
            acc.2.lookup v ∧
          (UCS.relaxNeighbor visited cur acc nb).1.filter
              (fun it => it.nodeId == v) =
            acc.1.filter (fun it => it.nodeId == v) := by
      unfold UCS.relaxNeighbor
      split
      · exact ⟨rfl, rfl⟩
      · split
        · constructor
          · exact lookup_mapSet_ne _ _ _ _ (Ne.symm hnb)
          · rw [List.filter_append]
            have hone :
                ([(⟨nb.1, cur.cost + nb.2, cur.path ++ [nb.1]⟩ :
                    UCS.PriorityQueueItem)].filter
                  (fun it => it.nodeId == v)) = [] := by
              have : ((⟨nb.1, cur.cost + nb.2, cur.path ++ [nb.1]⟩ :
                  UCS.PriorityQueueItem).nodeId == v) = false := by
                simpa using hnb
              simp [List.filter_cons, this]
            rw [hone, List.append_nil,
              filter_nodeId_of_filter_ne _ _ _ hnb]
        · exact ⟨rfl, rfl⟩
    exact ⟨ihr.1.trans hstep.1, ihr.2.trans hstep.2⟩

/-- Processing the edge towards an unvisited neighbor whose recorded best
cost is 0 replaces both the best-cost binding and the frontier entry of
that neighbor with the new candidate, whatever the candidate cost. -/
theorem relax_process_zero (visited : List String)
    (cur : UCS.PriorityQueueItem) (v : String) (w : Nat)
    (acc : List UCS.PriorityQueueItem × List (String × Nat))
    (hvis : visited.contains v = false) (hc : acc.2.lookup v = some 0) :
    (UCS.relaxNeighbor visited cur acc (v, w)).2.lookup v =
        some (cur.cost + w) ∧
      (UCS.relaxNeighbor visited cur acc (v, w)).1.filter
          (fun it => it.nodeId == v) =
        [⟨v, cur.cost + w, cur.path ++ [v]⟩] := by
  unfold UCS.relaxNeighbor
  simp only [hvis, Bool.false_eq_true, if_false, hc, UCS.shouldRelax,
    beq_self_eq_true, Bool.true_or, if_true]
  constructor
  · exact lookup_mapSet_self _ _ _
  · rw [List.filter_append, filter_nodeId_of_filter_self]
    simp [List.filter_cons]

theorem ucs_graph_neighbors_keys_nodup :
    ∀ nd ∈ UCS.graph, (nd.neighbors.map Prod.fst).Nodup := by decide

/-- C9: in the UCS relaxation, a recorded best cost of exactly 0 is
treated like an absent record: expanding a node adjacent to an unvisited
neighbor whose recorded best cost is 0 replaces that neighbor's frontier
entry and best-cost record with the new candidate, although over the
natural numbers no candidate can be strictly below 0. -/
theorem C9_ucs_zero_cost_treated_as_absent
    (s : UCS.Session) (cur : UCS.PriorityQueueItem)
    (rest : List UCS.PriorityQueueItem) (nd : UCS.Node) (v : String) (w : Nat)
    (hguard : ¬ (s.state.priorityQueue.length = 0 ∨ s.isComplete = true))
    (hsort : UCS.sortByCost s.state.priorityQueue = cur :: rest)
    (hfind : UCS.findNode cur.nodeId = some nd)
    (hmem : (v, w) ∈ nd.neighbors)
    (hvis : (setAdd s.state.visited cur.nodeId).contains v = false)
    (hcost : s.state.costs.lookup v = some 0) :
    (UCS.step s).map (fun s2 =>
        (s2.state.costs.lookup v,
          s2.state.priorityQueue.filter (fun it => it.nodeId == v))) =
      some (some (cur.cost + w),
        [⟨v, cur.cost + w, cur.path ++ [v]⟩]) := by
  have hmemg : nd ∈ UCS.graph := by
    have hf2 := hfind
    unfold UCS.findNode at hf2
    exact List.mem_of_find?_eq_some hf2
  obtain ⟨L1, L2, hsplit⟩ := List.append_of_mem hmem
  have hkeys := ucs_graph_neighbors_keys_nodup nd hmemg
  rw [hsplit] at hkeys
  simp only [List.map_append, List.map_cons, List.nodup_append,
    List.nodup_cons, List.disjoint_cons_right] at hkeys
  have hL1 : ∀ p ∈ L1, p.1 ≠ v := by
    intro p hp heq
    exact hkeys.2.2.1 (heq ▸ List.mem_map_of_mem Prod.fst hp)
  have hL2 : ∀ p ∈ L2, p.1 ≠ v := by
    intro p hp heq
    exact hkeys.2.1.1 (heq ▸ List.mem_map_of_mem Prod.fst hp)
  unfold UCS.step
  rw [if_neg hguard]
  simp only [hsort, hfind, Option.map_some']
  rw [hsplit, List.foldl_append, List.foldl_cons]
  have h1 := relax_fold_untouched (setAdd s.state.visited cur.nodeId) cur v
    L1 (rest, s.state.costs) hL1
  have h2 := relax_process_zero (setAdd s.state.visited cur.nodeId) cur v w
    (L1.foldl (UCS.relaxNeighbor (setAdd s.state.visited cur.nodeId) cur)
      (rest, s.state.costs)) hvis (h1.1.trans hcost)
  have h3 := relax_fold_untouched (setAdd s.state.visited cur.nodeId) cur v
    L2 (UCS.relaxNeighbor (setAdd s.state.visited cur.nodeId) cur
      (L1.foldl (UCS.relaxNeighbor (setAdd s.state.visited cur.nodeId) cur)
        (rest, s.state.costs)) (v, w)) hL2
  simp only [Option.some.injEq, Prod.mk.injEq]
  exact ⟨h3.1.trans h2.1, h3.2.trans h2.2⟩

/-- Witness for C9: a session where node B is enqueued and recorded with
best cost 0; expanding A replaces the B entry by cost 4, although 4 does
not improve on 0. -/
theorem C9_ucs_zero_cost_treated_as_absent_witness :
    (UCS.step ⟨⟨[], [⟨"A", 0, ["A"]⟩, ⟨"B", 0, ["B"]⟩], none, 0, [], 0,
        [("A", 0), ("B", 0)]⟩, false, false⟩).map (fun s2 =>
        (s2.state.costs.lookup "B",
          s2.state.priorityQueue.filter (fun it => it.nodeId == "B"))) =
      some (some 4, [⟨"B", 4, ["A", "B"]⟩]) :=
  C9_ucs_zero_cost_treated_as_absent
    ⟨⟨[], [⟨"A", 0, ["A"]⟩, ⟨"B", 0, ["B"]⟩], none, 0, [], 0,
      [("A", 0), ("B", 0)]⟩, false, false⟩
    ⟨"A", 0, ["A"]⟩ [⟨"B", 0, ["B"]⟩]
    ⟨"A", 100, 50, [("B", 4), ("C", 2)]⟩ "B" 4
    (by decide) (by decide) (by decide) (by decide) (by decide) (by decide)

/-- On same-length boards the index-wise equality test of the source
coincides with list equality. -/
theorem boardsEqual_iff {b1 b2 : List Nat} (h : b1.length = b2.length) :
    Puzzle.boardsEqual b1 b2 = true ↔ b1 = b2 := by
  unfold Puzzle.boardsEqual
  rw [List.all_eq_true]
  constructor
  · intro hall
    apply List.ext_get?
    intro n
    by_cases hn : n < b1.length
    · have := hall n (List.mem_range.mpr hn)
      simpa using this
    · rw [List.get?_eq_none.mpr (le_of_not_lt hn),
        List.get?_eq_none.mpr (by omega)]
  · intro heq n _
    subst heq
    simp

theorem boardsEqual_false_of_ne {b1 b2 : List Nat}
    (h : b1.length = b2.length) (hne : b1 ≠ b2) :
    Puzzle.boardsEqual b1 b2 = false := by
  cases hb : Puzzle.boardsEqual b1 b2
  · rfl
  · exact absurd ((boardsEqual_iff h).mp hb) hne

theorem listSwap_length (b : List Nat) (i j : Nat) :
    (Puzzle.listSwap b i j).length = b.length := by
  simp [Puzzle.listSwap]

/-- Reading the old blank cell of a swapped board returns the moved
tile. -/
theorem listSwap_get?_at (b : List Nat) (e p : Nat) (he : e < b.length)
    (hp : p < b.length) (hne : p ≠ e) :
    (Puzzle.listSwap b e p).get? e = b.get? p := by
  unfold Puzzle.listSwap
  rw [List.get?_set_ne _ _ hne, List.get?_set_eq, List.get?_eq_get he]
  show some (b.getD p 0) = b.get? p
  rw [List.getD_eq_get?, List.get?_eq_get hp]
  rfl

/-- Two swaps of the same duplicate-free board towards distinct cells
yield boards the index-wise test tells apart. -/
theorem swap_boardsEqual_false (b : List Nat) (hnd : b.Nodup)
    (e p q : Nat) (he : e < b.length) (hp : p < b.length)
    (hq : q < b.length) (hpe : p ≠ e) (hqe : q ≠ e) (hpq : p ≠ q) :
    Puzzle.boardsEqual (Puzzle.listSwap b e p) (Puzzle.listSwap b e q) =
      false := by
  apply boardsEqual_false_of_ne
  · rw [listSwap_length, listSwap_length]
  · intro heq
    have h1 := listSwap_get?_at b e p he hp hpe
    have h2 := listSwap_get?_at b e q he hq hqe
    rw [heq, h2] at h1
    rw [List.get?_eq_get hq, List.get?_eq_get hp] at h1
    injection h1 with h3
    have h4 := (hnd.get_inj_iff).mp h3
    exact hpq ((by simpa using congrArg Fin.val h4 : q = p).symm)

/-- Elements produced by a foldl that at each step either keeps the
accumulator or appends items satisfying P. -/
theorem mem_foldl_pres {α β : Type} (f : List α → β → List α) (P : α → Prop)
    (hf : ∀ acc b u, u ∈ f acc b → u ∈ acc ∨ P u) :
    ∀ (L : List β) (acc : List α) (u : α), u ∈ L.foldl f acc →
      u ∈ acc ∨ P u := by
  intro L
  induction L with
  | nil => intro acc u h; exact Or.inl h
  | cons b rest ih =>
    intro acc u h
    rw [List.foldl_cons] at h
    rcases ih (f acc b) u h with h2 | h2
    · exact hf acc b u h2
    · exact Or.inr h2

/-- Two in-bounds blank moves whose row-column offsets differ land on
different cells, so the swapped boards are distinguished by the
index-wise test. -/
theorem swap_succ_ne (bd : List Nat) (e : Nat) (hlen : bd.length = 9)
    (hnd : bd.Nodup) (hpos : e < 9) (m1 m2 : Int × Int × String)
    (h1 : Puzzle.moveInBounds e m1) (h2 : Puzzle.moveInBounds e m2)
    (hz1 : 3 * m1.1 + m1.2.1 ≠ 0) (hz2 : 3 * m2.1 + m2.2.1 ≠ 0)
    (hne : 3 * m1.1 + m1.2.1 ≠ 3 * m2.1 + m2.2.1) :
    Puzzle.boardsEqual (Puzzle.listSwap bd e (Puzzle.movedPos e m1))
      (Puzzle.listSwap bd e (Puzzle.movedPos e m2)) = false := by
  apply swap_boardsEqual_false bd hnd e _ _ ?he ?hp ?hq ?hpe ?hqe ?hpq
  case he => omega
  case hp =>
    simp only [Puzzle.movedPos, Puzzle.moveInBounds] at h1 ⊢
    omega
  case hq =>
    simp only [Puzzle.movedPos, Puzzle.moveInBounds] at h2 ⊢
    omega
  case hpe =>
    simp only [Puzzle.movedPos, Puzzle.moveInBounds] at h1 ⊢
    omega
  case hqe =>
    simp only [Puzzle.movedPos, Puzzle.moveInBounds] at h2 ⊢
    omega
  case hpq =>
    simp only [Puzzle.movedPos, Puzzle.moveInBounds] at h1 h2 ⊢
    omega

/-- On a duplicate-free nine-cell board the boards of the generated
successors are pairwise distinguishable by the index-wise test: each
successor overwrites the old blank cell with a different tile. -/
theorem getSuccessors_pairwise (st : Puzzle.PuzzleState)
    (hlen : st.board.length = 9) (hpos : st.emptyPos < 9)
    (hnd : st.board.Nodup) :
    (Puzzle.getSuccessors st).Pairwise
      (fun a b => Puzzle.boardsEqual a.board b.board = false) := by
  obtain ⟨bd, e, c, h, pth, d⟩ := st
  dsimp only at hlen hpos hnd ⊢
  simp only [Puzzle.getSuccessors, Puzzle.moves, List.foldl_cons,
    List.foldl_nil]
  split_ifs with h1 h2 h3 h4 <;>
    simp only [List.nil_append, List.cons_append, List.append_nil,
      List.pairwise_cons, List.forall_mem_cons, List.forall_mem_nil,
      List.not_mem_nil, List.Pairwise.nil, and_true, true_and,
      IsEmpty.forall_iff, implies_true] <;>
    (repeat' constructor) <;>
    (apply swap_succ_ne bd _ hlen hnd hpos <;> first | assumption | decide)

/-- When the pushed successors are pairwise distinguishable, the
accumulating dedup fold of the source behaves like a pure filter against
the closed list and the pre-existing open list, leaving the open list as
an untouched prefix. -/
theorem pushSuccessors_eq_filter (closed : List Puzzle.PuzzleState) :
    ∀ (succs acc : List Puzzle.PuzzleState),
      succs.Pairwise
        (fun a b => Puzzle.boardsEqual a.board b.board = false) →
      Puzzle.pushSuccessors closed acc succs =
        acc ++ succs.filter (fun u =>
          !(closed.any (fun st => Puzzle.boardsEqual st.board u.board)) &&
          !(acc.any (fun st => Puzzle.boardsEqual st.board u.board))) := by
  intro succs
  induction succs with
  | nil => intro acc _; simp [Puzzle.pushSuccessors]
  | cons t ts ih =>
    intro acc hp
    rw [List.pairwise_cons] at hp
    obtain ⟨ht, hts⟩ := hp
    have hstep : Puzzle.pushSuccessors closed acc (t :: ts) =
        Puzzle.pushSuccessors closed
          (if (!(closed.any fun st => Puzzle.boardsEqual st.board t.board) &&
              !(acc.any fun st => Puzzle.boardsEqual st.board t.board)) = true
            then acc ++ [t] else acc) ts := rfl
    rw [hstep]
    by_cases hc :
        (!(closed.any fun st => Puzzle.boardsEqual st.board t.board) &&
          !(acc.any fun st => Puzzle.boardsEqual st.board t.board)) = true
    · rw [if_pos hc, ih (acc ++ [t]) hts]
      have hfeq : ∀ u ∈ ts,
          (!(closed.any fun st => Puzzle.boardsEqual st.board u.board) &&
            !((acc ++ [t]).any fun st =>
              Puzzle.boardsEqual st.board u.board)) =
          (!(closed.any fun st => Puzzle.boardsEqual st.board u.board) &&
            !(acc.any fun st => Puzzle.boardsEqual st.board u.board)) := by
        intro u hu
        simp [List.any_append, ht u hu]
      rw [List.filter_congr hfeq]
      simp [List.filter_cons, hc]
    · have hcf :
          (!(closed.any fun st => Puzzle.boardsEqual st.board t.board) &&
            !(acc.any fun st => Puzzle.boardsEqual st.board t.board)) =
            false := by
        simpa using hc
      rw [if_neg hc, ih acc hts]
      simp [List.filter_cons, hcf]

/-- C4: in every 8-puzzle step under each algorithm mode, once the
selected record is moved to the closed list and is not the goal, the new
open list is exactly the old remainder followed by those successors whose
board matches no board already in the closed list or open list: equal
boards are discarded whatever their cost, nothing already queued is
removed or replaced, and first-seen wins. -/
theorem C4_puzzle_first_seen_dedup
    (s : Puzzle.Session) (next : Puzzle.PuzzleState)
    (rest : List Puzzle.PuzzleState)
    (hguard : ¬ (s.searchState.openList.length = 0 ∨ s.isComplete = true))
    (hsel : Puzzle.select s.searchState.algorithm s.searchState.openList =
      some (next, rest))
    (hgoal : Puzzle.isGoalState next.board = false)
    (hlen : next.board.length = 9) (hpos : next.emptyPos < 9)
    (hnd : next.board.Nodup) :
    (Puzzle.step s).searchState.closedList =
        s.searchState.closedList ++ [next] ∧
      (Puzzle.step s).searchState.openList =
        rest ++ (Puzzle.getSuccessors next).filter (fun u =>
          !((s.searchState.closedList ++ [next]).any
              (fun st => Puzzle.boardsEqual st.board u.board)) &&
          !(rest.any (fun st => Puzzle.boardsEqual st.board u.board))) ∧
      (∃ tail, (Puzzle.step s).searchState.openList = rest ++ tail) := by
  unfold Puzzle.step
  rw [if_neg hguard]
  simp only [hsel, hgoal, Bool.false_eq_true, if_false]
  refine ⟨by trivial, ?_, ?_⟩
  · exact pushSuccessors_eq_filter (s.searchState.closedList ++ [next])
      (Puzzle.getSuccessors next) rest
      (getSuccessors_pairwise next hlen hpos hnd)
  · exact ⟨_, pushSuccessors_eq_filter (s.searchState.closedList ++ [next])
      (Puzzle.getSuccessors next) rest
      (getSuccessors_pairwise next hlen hpos hnd)⟩

/-- Witness for C4 on the first solve step from the hard-coded board:
the popped record joins the closed list. -/
theorem C4_puzzle_first_seen_dedup_witness :
    (Puzzle.step (Puzzle.run Puzzle.Alg.bfs 0)).searchState.closedList.length
      = 1 := by
  have h := C4_puzzle_first_seen_dedup (Puzzle.run Puzzle.Alg.bfs 0)
    ⟨[1, 2, 3, 4, 0, 5, 7, 8, 6], 4, 0, 2, [], 0⟩ []
    (by decide) (by decide) (by decide) (by decide) (by decide) (by decide)
  rw [h.1]
  decide

theorem contains_false_iff (l : List String) (x : String) :
    l.contains x = false ↔ x ∉ l := by
  rw [show l.contains x = List.elem x l from rfl]
  constructor
  · intro h hx
    rw [List.elem_iff.mpr hx] at h
    cases h
  · intro h
    cases he : List.elem x l
    · rfl
    · exact absurd (List.elem_iff.mp he) h

theorem contains_true_iff (l : List String) (x : String) :
    l.contains x = true ↔ x ∈ l := by
  rw [show l.contains x = List.elem x l from rfl]
  exact List.elem_iff

theorem dfs_graph_neighbors_nodup :
    ∀ nd ∈ DFS.graph, nd.neighbors.Nodup := by decide

/-- One DFS step preserves the deduplication invariant. -/
theorem dfs_inv_step {s s' : DFS.Session} (hinv : DFS.Inv s)
    (hstep : DFS.step s = some s') : DFS.Inv s' := by
  unfold DFS.step at hstep
  by_cases hguard : s.state.stack.length = 0 ∨ s.isComplete = true
  · rw [if_pos hguard] at hstep
    injection hstep with h
    subst h
    exact hinv
  · rw [if_neg hguard] at hstep
    cases hl : s.state.stack.getLast? with
    | none =>
      simp only [hl] at hstep
      injection hstep with h
      subst h
      exact hinv
    | some current =>
      simp only [hl] at hstep
      cases hf : DFS.findNode current with
      | none => simp only [hf] at hstep; cases hstep
      | some node =>
        simp only [hf] at hstep
        injection hstep with h
        subst h
        obtain ⟨h1, h2, h3⟩ := hinv
        have hmemg : node ∈ DFS.graph := by
          have hf2 := hf
          unfold DFS.findNode at hf2
          exact List.mem_of_find?_eq_some hf2
        have hnbnd : node.neighbors.Nodup := dfs_graph_neighbors_nodup node hmemg
        have hdnd : s.state.stack.dropLast.Nodup :=
          (List.dropLast_sublist s.state.stack).nodup h1
        have hcur : current ∉ s.state.stack.dropLast :=
          getLast_not_mem_dropLast hl h1
        have hcurmem : current ∈ s.state.stack := getLast_mem_of_getLast? hl
        refine ⟨?_, ?_, setAdd_nodup _ _ h3⟩
        · apply List.Nodup.append hdnd
          · exact List.nodup_reverse.mpr (hnbnd.filter _)
          · intro x hx hx2
            have hx3 := (List.mem_filter.mp (List.mem_reverse.mp hx2)).2
            have hx4 : ¬ s.state.stack.dropLast.contains x = true := by
              intro hc
              rw [hc] at hx3
              simp at hx3
            exact hx4 ((contains_true_iff _ _).mpr hx)
        · intro x hx
          rcases List.mem_append.mp hx with hx | hx
          · have hxs : x ∈ s.state.stack :=
              List.mem_of_mem_dropLast hx
            intro hmem
            rcases (mem_setAdd _ _ _).mp hmem with hv | hv
            · exact h2 x hxs hv
            · exact hcur (hv ▸ hx)
          · have hx3 := (List.mem_filter.mp (List.mem_reverse.mp hx)).2
            rw [Bool.and_eq_true] at hx3
            have hx4 : (setAdd s.state.visited current).contains x = false := by
              cases hc : (setAdd s.state.visited current).contains x
              · rfl
              · rw [hc] at hx3
                simp at hx3
            exact (contains_false_iff _ _).mp hx4

theorem dfs_reachable_inv {s : DFS.Session} (h : DFS.Reachable s) :
    DFS.Inv s := by
  induction h with
  | init =>
    refine ⟨by decide, ?_, by decide⟩
    intro x hx
    simp [DFS.initSession, DFS.initState] at hx ⊢
  | next _ hstep ih => exact dfs_inv_step ih hstep

/-- A non-terminal DFS step grows the visited list by exactly the popped
node. -/
theorem dfs_step_growth {s s' : DFS.Session} (hinv : DFS.Inv s)
    (hguard : ¬ (s.state.stack.length = 0 ∨ s.isComplete = true))
    (hstep : DFS.step s = some s') :
    s.state.visited.Sublist s'.state.visited ∧
      s'.state.visited.length = s.state.visited.length + 1 := by
  unfold DFS.step at hstep
  rw [if_neg hguard] at hstep
  cases hl : s.state.stack.getLast? with
  | none =>
    rw [List.getLast?_eq_none] at hl
    exfalso
    exact hguard (Or.inl (by simp [hl]))
  | some current =>
    simp only [hl] at hstep
    cases hf : DFS.findNode current with
    | none => simp only [hf] at hstep; cases hstep
    | some node =>
      simp only [hf] at hstep
      injection hstep with h
      subst h
      have hcurmem : current ∈ s.state.stack := getLast_mem_of_getLast? hl
      have hnv : current ∉ s.state.visited := hinv.2.1 current hcurmem
      exact ⟨setAdd_sublist _ _, setAdd_length_of_not_mem _ _ hnv⟩

theorem dls_graph_neighbors_nodup :
    ∀ nd ∈ DLS.graph, nd.neighbors.Nodup := by decide

theorem map_nodeId_mk (L : List String) (d : Nat) (f : String → List String) :
    (L.map (fun nb => DLS.StackItem.mk nb d (f nb))).map
      (fun it => it.nodeId) = L := by
  induction L with
  | nil => rfl
  | cons a l ih => simp only [List.map_cons, ih]

/-- One DLS step preserves the deduplication invariant. -/
theorem dls_inv_step {limit : Nat} {s s' : DLS.Session} (hinv : DLS.Inv s)
    (hstep : DLS.step limit s = some s') : DLS.Inv s' := by
  unfold DLS.step at hstep
  by_cases hguard : s.state.stack.length = 0 ∨ s.isComplete = true
  · rw [if_pos hguard] at hstep
    injection hstep with h
    subst h
    exact hinv
  · rw [if_neg hguard] at hstep
    cases hl : s.state.stack.getLast? with
    | none =>
      simp only [hl] at hstep
      injection hstep with h
      subst h
      exact hinv
    | some cur =>
      simp only [hl] at hstep
      cases hf : DLS.findNode cur.nodeId with
      | none => simp only [hf] at hstep; cases hstep
      | some node =>
        simp only [hf] at hstep
        injection hstep with h
        subst h
        obtain ⟨h1, h2, h3⟩ := hinv
        have hmemg : node ∈ DLS.graph := by
          have hf2 := hf
          unfold DLS.findNode at hf2
          exact List.mem_of_find?_eq_some hf2
        have hnbnd : node.neighbors.Nodup :=
          dls_graph_neighbors_nodup node hmemg
        have hdnd :
            (s.state.stack.dropLast.map (fun it => it.nodeId)).Nodup :=
          (List.Sublist.map _ (List.dropLast_sublist _)).nodup h1
        have hsplit := eq_dropLast_append hl
        have hcurnot : cur.nodeId ∉
            s.state.stack.dropLast.map (fun it => it.nodeId) := by
          have h1' := h1
          rw [hsplit, List.map_append, List.nodup_append] at h1'
          intro hx
          exact h1'.2.2 hx (by simp)
        by_cases hd : cur.depth < limit
        · simp only [if_pos hd]
          constructor
          · rw [List.map_append, map_nodeId_mk]
            apply List.Nodup.append hdnd
            · exact List.nodup_reverse.mpr (hnbnd.filter _)
            · intro x hx hx2
              have hx3 :=
                (List.mem_filter.mp (List.mem_reverse.mp hx2)).2
              rw [Bool.and_eq_true] at hx3
              have hx4 := hx3.2
              rcases List.mem_map.mp hx with ⟨item, hitem, rfl⟩
              have : s.state.stack.dropLast.any
                  (fun it => it.nodeId == item.nodeId) = true := by
                rw [List.any_eq_true]
                exact ⟨item, hitem, by simp⟩
              rw [this] at hx4
              simp at hx4
          · refine ⟨?_, setAdd_nodup _ _ h3⟩
            intro item hitem
            rcases List.mem_append.mp hitem with hitem | hitem
            · have hxs : item ∈ s.state.stack :=
                List.mem_of_mem_dropLast hitem
              intro hmem
              rcases (mem_setAdd _ _ _).mp hmem with hv | hv
              · exact h2 item hxs hv
              · exact hcurnot (hv ▸ List.mem_map_of_mem _ hitem)
            · rcases List.mem_map.mp hitem with ⟨nb, hnb, rfl⟩
              have hx3 := (List.mem_filter.mp (List.mem_reverse.mp hnb)).2
              rw [Bool.and_eq_true] at hx3
              have hx4 : (setAdd s.state.visited cur.nodeId).contains nb =
                  false := by
                cases hc : (setAdd s.state.visited cur.nodeId).contains nb
                · rfl
                · rw [hc] at hx3
                  simp at hx3
              exact (contains_false_iff _ _).mp hx4
        · simp only [if_neg hd]
          refine ⟨?_, ?_, setAdd_nodup _ _ h3⟩
          · simpa using hdnd
          · intro item hitem
            rw [List.append_nil] at hitem
            have hxs : item ∈ s.state.stack :=
              List.mem_of_mem_dropLast hitem
            intro hmem
            rcases (mem_setAdd _ _ _).mp hmem with hv | hv
            · exact h2 item hxs hv
            · exact hcurnot (hv ▸ List.mem_map_of_mem _ hitem)

theorem dls_reachable_inv {limit : Nat} {s : DLS.Session}
    (h : DLS.Reachable limit s) : DLS.Inv s := by
  induction h with
  | init =>
    refine ⟨by decide, ?_, by decide⟩
    intro x hx
    simp [DLS.initSession, DLS.initState] at hx
    simp [DLS.initSession, DLS.initState, hx]
  | next _ hstep ih => exact dls_inv_step ih hstep

/-- A non-terminal DLS step grows the visited list by exactly the popped
node. -/
theorem dls_step_growth {limit : Nat} {s s' : DLS.Session}
    (hinv : DLS.Inv s)
    (hguard : ¬ (s.state.stack.length = 0 ∨ s.isComplete = true))
    (hstep : DLS.step limit s = some s') :
    s.state.visited.Sublist s'.state.visited ∧
      s'.state.visited.length = s.state.visited.length + 1 := by
  unfold DLS.step at hstep
  rw [if_neg hguard] at hstep
  cases hl : s.state.stack.getLast? with
  | none =>
    rw [List.getLast?_eq_none] at hl
    exact absurd (Or.inl (by simp [hl])) hguard
  | some cur =>
    simp only [hl] at hstep
    cases hf : DLS.findNode cur.nodeId with
    | none => simp only [hf] at hstep; cases hstep
    | some node =>
      simp only [hf] at hstep
      injection hstep with h
      subst h
      have hcurmem : cur ∈ s.state.stack := getLast_mem_of_getLast? hl
      have hnv : cur.nodeId ∉ s.state.visited := hinv.2.1 cur hcurmem
      exact ⟨setAdd_sublist _ _, setAdd_length_of_not_mem _ _ hnv⟩

/-- The relaxation fold keeps the queued node ids pairwise distinct and
disjoint from the visited set. -/
theorem relax_fold_inv (visited : List String)
    (cur : UCS.PriorityQueueItem) :
    ∀ (L : List (String × Nat))
      (acc : List UCS.PriorityQueueItem × List (String × Nat)),
      (acc.1.map (fun it => it.nodeId)).Nodup →
      (∀ it ∈ acc.1, visited.contains it.nodeId = false) →
      ((L.foldl (UCS.relaxNeighbor visited cur) acc).1.map
          (fun it => it.nodeId)).Nodup ∧
        ∀ it ∈ (L.foldl (UCS.relaxNeighbor visited cur) acc).1,
          visited.contains it.nodeId = false := by
  intro L
  induction L with
  | nil => intro acc h1 h2; exact ⟨h1, h2⟩
  | cons nb rest ih =>
    intro acc h1 h2
    rw [List.foldl_cons]
    have hpres :
        ((UCS.relaxNeighbor visited cur acc nb).1.map
            (fun it => it.nodeId)).Nodup ∧
          ∀ it ∈ (UCS.relaxNeighbor visited cur acc nb).1,
            visited.contains it.nodeId = false := by
      unfold UCS.relaxNeighbor
      split
      · exact ⟨h1, h2⟩
      · rename_i hvisnb
        split
        · constructor
          · rw [List.map_append]
            apply List.Nodup.append
            · exact (List.Sublist.map _ (List.filter_sublist _)).nodup h1
            · simp
            · intro x hx hx2
              simp at hx2
              rcases List.mem_map.mp hx with ⟨item, hitem, rfl⟩
              have := (List.mem_filter.mp hitem).2
              rw [hx2] at this
              simp at this
          · intro it hit
            rcases List.mem_append.mp hit with hit | hit
            · exact h2 it (List.mem_of_mem_filter hit)
            · simp at hit
              subst hit
              cases hv : visited.contains nb.1
              · rfl
              · exact absurd hv hvisnb
        · exact ⟨h1, h2⟩
    exact ih _ hpres.1 hpres.2

/-- One UCS step preserves the deduplication invariant. -/
theorem ucs_inv_step {s s' : UCS.Session} (hinv : UCS.Inv s)
    (hstep : UCS.step s = some s') : UCS.Inv s' := by
  unfold UCS.step at hstep
  by_cases hguard : s.state.priorityQueue.length = 0 ∨ s.isComplete = true
  · rw [if_pos hguard] at hstep
    injection hstep with h
    subst h
    exact hinv
  · rw [if_neg hguard] at hstep
    cases hsort : UCS.sortByCost s.state.priorityQueue with
    | nil =>
      simp only [hsort] at hstep
      injection hstep with h
      subst h
      exact hinv
    | cons cur rest =>
      simp only [hsort] at hstep
      cases hf : UCS.findNode cur.nodeId with
      | none => simp only [hf] at hstep; cases hstep
      | some node =>
        simp only [hf] at hstep
        injection hstep with h
        subst h
        obtain ⟨h1, h2, h3⟩ := hinv
        have hperm : (cur :: rest).Perm s.state.priorityQueue := by
          have hp := sortByKey_perm (fun item : UCS.PriorityQueueItem =>
            item.cost) s.state.priorityQueue
          rw [show UCS.sortByCost s.state.priorityQueue =
            sortByKey (fun item : UCS.PriorityQueueItem => item.cost)
              s.state.priorityQueue from rfl] at hsort
          rw [hsort] at hp
          exact hp
        have hmnd : ((cur :: rest).map (fun it => it.nodeId)).Nodup :=
          ((hperm.map _).nodup_iff).mpr h1
        rw [List.map_cons, List.nodup_cons] at hmnd
        have hrestvis : ∀ it ∈ rest,
            (setAdd s.state.visited cur.nodeId).contains it.nodeId =
              false := by
          intro it hit
          rw [contains_false_iff, mem_setAdd]
          rintro (hv | hv)
          · exact h2 it (hperm.mem_iff.mp (List.mem_cons_of_mem _ hit)) hv
          · exact hmnd.1 (hv ▸ List.mem_map_of_mem _ hit)
        have hfold := relax_fold_inv (setAdd s.state.visited cur.nodeId) cur
          node.neighbors (rest, s.state.costs) hmnd.2 hrestvis
        refine ⟨hfold.1, ?_, setAdd_nodup _ _ h3⟩
        intro it hit
        exact (contains_false_iff _ _).mp (hfold.2 it hit)

theorem ucs_reachable_inv {s : UCS.Session} (h : UCS.Reachable s) :
    UCS.Inv s := by
  induction h with
  | init =>
    refine ⟨by decide, ?_, by decide⟩
    intro it hit
    simp [UCS.initSession, UCS.initState] at hit
    simp [UCS.initSession, UCS.initState, hit]
  | next _ hstep ih => exact ucs_inv_step ih hstep

/-- A non-terminal UCS step grows the visited list by exactly the popped
node. -/
theorem ucs_step_growth {s s' : UCS.Session} (hinv : UCS.Inv s)
    (hguard : ¬ (s.state.priorityQueue.length = 0 ∨ s.isComplete = true))
    (hstep : UCS.step s = some s') :
    s.state.visited.Sublist s'.state.visited ∧
      s'.state.visited.length = s.state.visited.length + 1 := by
  unfold UCS.step at hstep
  rw [if_neg hguard] at hstep
  cases hsort : UCS.sortByCost s.state.priorityQueue with
  | nil =>
    exfalso
    have hp := sortByKey_perm (fun item : UCS.PriorityQueueItem =>
      item.cost) s.state.priorityQueue
    rw [show UCS.sortByCost s.state.priorityQueue =
      sortByKey (fun item : UCS.PriorityQueueItem => item.cost)
        s.state.priorityQueue from rfl] at hsort
    rw [hsort] at hp
    exact hguard (Or.inl (by simp [hp.symm.length_eq]))
  | cons cur rest =>
    simp only [hsort] at hstep
    cases hf : UCS.findNode cur.nodeId with
    | none => simp only [hf] at hstep; cases hstep
    | some node =>
      simp only [hf] at hstep
      injection hstep with h
      subst h
      have hperm : (cur :: rest).Perm s.state.priorityQueue := by
        have hp := sortByKey_perm (fun item : UCS.PriorityQueueItem =>
          item.cost) s.state.priorityQueue
        rw [show UCS.sortByCost s.state.priorityQueue =
          sortByKey (fun item : UCS.PriorityQueueItem => item.cost)
            s.state.priorityQueue from rfl] at hsort
        rw [hsort] at hp
        exact hp
      have hnv : cur.nodeId ∉ s.state.visited :=
        hinv.2.1 cur (hperm.mem_iff.mp (List.mem_cons_self _ _))
      exact ⟨setAdd_sublist _ _, setAdd_length_of_not_mem _ _ hnv⟩

/-- The frontier selection of any puzzle mode is a permutation split of
the open list. -/
theorem select_perm {alg : Puzzle.Alg} {openList : List Puzzle.PuzzleState}
    {next : Puzzle.PuzzleState} {rest : List Puzzle.PuzzleState}
    (h : Puzzle.select alg openList = some (next, rest)) :
    openList.Perm (next :: rest) := by
  cases alg with
  | bfs =>
    cases openList with
    | nil => cases h
    | cons x xs =>
      simp only [Puzzle.select, Option.some.injEq, Prod.mk.injEq] at h
      obtain ⟨h1, h2⟩ := h
      subst h1
      subst h2
      exact List.Perm.refl _
  | dfs =>
    unfold Puzzle.select at h
    cases hl : openList.getLast? with
    | none => simp only [hl] at h; cases h
    | some x =>
      simp only [hl, Option.some.injEq, Prod.mk.injEq] at h
      obtain ⟨h1, h2⟩ := h
      subst h1
      subst h2
      nth_rewrite 1 [eq_dropLast_append hl]
      exact List.perm_append_singleton _ _
  | astar =>
    unfold Puzzle.select at h
    cases hs : sortByKey (fun st => st.cost + st.heuristic) openList with
    | nil => simp only [hs] at h; cases h
    | cons x xs =>
      simp only [hs, Option.some.injEq, Prod.mk.injEq] at h
      obtain ⟨h1, h2⟩ := h
      subst h1
      subst h2
      have hp := sortByKey_perm
        (fun st : Puzzle.PuzzleState => st.cost + st.heuristic) openList
      rw [hs] at hp
      exact hp.symm

/-- Every generated successor board has the same cell count as the parent
board. -/
theorem getSuccessors_board_length {st : Puzzle.PuzzleState} :
    ∀ u ∈ Puzzle.getSuccessors st, u.board.length = st.board.length := by
  intro u h
  unfold Puzzle.getSuccessors at h
  have key := mem_foldl_pres _ (fun v : Puzzle.PuzzleState =>
    v.board.length = st.board.length) ?hf Puzzle.moves [] u h
  rcases key with h0 | h0
  · simp at h0
  · exact h0
  case hf =>
    intro acc mv u2 hu
    split at hu
    · rcases List.mem_append.mp hu with h2 | h2
      · exact Or.inl h2
      · simp only [List.mem_singleton] at h2
        subst h2
        exact Or.inr (by simp [Puzzle.listSwap])
    · exact Or.inl hu

/-- The dedup-and-append fold preserves the puzzle invariant on the open
and closed lists taken together. -/
theorem pushSuccessors_inv (closed : List Puzzle.PuzzleState) :
    ∀ (succs acc : List Puzzle.PuzzleState),
      (∀ st2 ∈ acc ++ closed, st2.board.length = 9) →
      ((acc ++ closed).map (fun st2 => st2.board)).Nodup →
      (∀ u ∈ succs, u.board.length = 9) →
      (∀ st2 ∈ Puzzle.pushSuccessors closed acc succs ++ closed,
          st2.board.length = 9) ∧
        ((Puzzle.pushSuccessors closed acc succs ++ closed).map
            (fun st2 => st2.board)).Nodup := by
  intro succs
  induction succs with
  | nil => intro acc h1 h2 _; exact ⟨h1, h2⟩
  | cons t ts ih =>
    intro acc h1 h2 h3
    have hstep : Puzzle.pushSuccessors closed acc (t :: ts) =
        Puzzle.pushSuccessors closed
          (if (!(closed.any fun st2 => Puzzle.boardsEqual st2.board t.board)
              && !(acc.any fun st2 => Puzzle.boardsEqual st2.board t.board))
              = true
            then acc ++ [t] else acc) ts := rfl
    rw [hstep]
    by_cases hc :
        (!(closed.any fun st2 => Puzzle.boardsEqual st2.board t.board) &&
          !(acc.any fun st2 => Puzzle.boardsEqual st2.board t.board)) = true
    · rw [if_pos hc]
      have htb : t.board.length = 9 := h3 t (List.mem_cons_self _ _)
      have hnew1 : ∀ st2 ∈ (acc ++ [t]) ++ closed, st2.board.length = 9 := by
        intro st2 hst2
        rcases List.mem_append.mp hst2 with hst2 | hst2
        · rcases List.mem_append.mp hst2 with hst2 | hst2
          · exact h1 st2 (List.mem_append.mpr (Or.inl hst2))
          · simp only [List.mem_singleton] at hst2
            subst hst2
            exact htb
        · exact h1 st2 (List.mem_append.mpr (Or.inr hst2))
      have hnew2 : (((acc ++ [t]) ++ closed).map
          (fun st2 => st2.board)).Nodup := by
        have hperm : ((acc ++ [t]) ++ closed).Perm
            (t :: (acc ++ closed)) := by
          have := List.Perm.append_right closed
            (List.perm_append_singleton t acc)
          exact this
        refine ((hperm.map _).nodup_iff).mpr ?_
        rw [List.map_cons, List.nodup_cons]
        refine ⟨?_, h2⟩
        rw [Bool.and_eq_true, Bool.not_eq_true', Bool.not_eq_true'] at hc
        intro hmem
        rcases List.mem_map.mp hmem with ⟨st2, hst2, hbeq⟩
        have hst2len : st2.board.length = 9 := h1 st2 hst2
        have hbe : Puzzle.boardsEqual st2.board t.board = true :=
          (boardsEqual_iff (by rw [hst2len, htb])).mpr hbeq
        rcases List.mem_append.mp hst2 with hst2 | hst2
        · exact absurd hbe (by
            have := List.any_eq_false.mp hc.2 st2 hst2
            simpa using this)
        · exact absurd hbe (by
            have := List.any_eq_false.mp hc.1 st2 hst2
            simpa using this)
      exact ih (acc ++ [t]) hnew1 hnew2
        (fun u hu => h3 u (List.mem_cons_of_mem _ hu))
    · rw [if_neg hc]
      exact ih acc h1 h2 (fun u hu => h3 u (List.mem_cons_of_mem _ hu))

/-- One puzzle step preserves the deduplication invariant. -/
theorem puzzle_inv_step {s : Puzzle.Session} (hinv : Puzzle.Inv s) :
    Puzzle.Inv (Puzzle.step s) := by
  unfold Puzzle.step
  by_cases hguard : s.searchState.openList.length = 0 ∨ s.isComplete = true
  · rw [if_pos hguard]
    exact hinv
  · rw [if_neg hguard]
    cases hsel : Puzzle.select s.searchState.algorithm
        s.searchState.openList with
    | none => exact hinv
    | some p =>
      obtain ⟨next, rest⟩ := p
      simp only [hsel]
      obtain ⟨hlen, hnd⟩ := hinv
      have hperm := select_perm hsel
      have hpermc : (s.searchState.openList ++
          s.searchState.closedList).Perm
          (next :: (rest ++ s.searchState.closedList)) :=
        List.Perm.append_right _ hperm
      have hlen2 : ∀ st2 ∈ next :: (rest ++ s.searchState.closedList),
          st2.board.length = 9 :=
        fun st2 hst2 => hlen st2 (hpermc.mem_iff.mpr hst2)
      have hnd2 : ((next :: (rest ++ s.searchState.closedList)).map
          (fun st2 => st2.board)).Nodup :=
        ((hpermc.map _).nodup_iff).mp hnd
      have hperm2 : (rest ++ (s.searchState.closedList ++ [next])).Perm
          (next :: (rest ++ s.searchState.closedList)) := by
        have h1 : rest ++ (s.searchState.closedList ++ [next]) =
            (rest ++ s.searchState.closedList) ++ [next] := by
          rw [List.append_assoc]
        rw [h1]
        exact List.perm_append_singleton _ _
      have hbase1 : ∀ st2 ∈ rest ++ (s.searchState.closedList ++ [next]),
          st2.board.length = 9 :=
        fun st2 hst2 => hlen2 st2 (hperm2.mem_iff.mp hst2)
      have hbase2 : ((rest ++ (s.searchState.closedList ++ [next])).map
          (fun st2 => st2.board)).Nodup :=
        ((hperm2.map _).nodup_iff).mpr hnd2
      split
      · exact ⟨hbase1, hbase2⟩
      · have hsucc : ∀ u ∈ Puzzle.getSuccessors next,
            u.board.length = 9 := by
          intro u hu
          rw [getSuccessors_board_length u hu]
          exact hlen2 next (List.mem_cons_self _ _)
        exact pushSuccessors_inv (s.searchState.closedList ++ [next])
          (Puzzle.getSuccessors next) rest hbase1 hbase2 hsucc

theorem puzzle_reachable_inv {board0 : List Nat} {alg : Puzzle.Alg}
    {s : Puzzle.Session} (hb : board0.length = 9)
    (h : Puzzle.Reachable board0 alg s) : Puzzle.Inv s := by
  induction h with
  | init =>
    unfold Puzzle.startSolve
    split
    · constructor
      · intro st2 hst2
        simp [Puzzle.initSession] at hst2
      · simp [Puzzle.initSession]
    · refine ⟨?_, by simp⟩
      intro st2 hst2
      simp at hst2
      rw [hst2]
      exact hb
  | next _ ih => exact puzzle_inv_step ih

/-- A non-terminal puzzle step appends exactly the selected record to the
closed list, whose boards stay pairwise distinct. -/
theorem puzzle_step_growth {s : Puzzle.Session}
    {next : Puzzle.PuzzleState} {rest : List Puzzle.PuzzleState}
    (hinv : Puzzle.Inv s)
    (hguard : ¬ (s.searchState.openList.length = 0 ∨ s.isComplete = true))
    (hsel : Puzzle.select s.searchState.algorithm s.searchState.openList =
      some (next, rest)) :
    s.searchState.closedList.Sublist
        (Puzzle.step s).searchState.closedList ∧
      (Puzzle.step s).searchState.closedList.length =
        s.searchState.closedList.length + 1 ∧
      ((Puzzle.step s).searchState.closedList.map
          (fun st2 => st2.board)).Nodup := by
  have hcl : (Puzzle.step s).searchState.closedList =
      s.searchState.closedList ++ [next] := by
    unfold Puzzle.step
    rw [if_neg hguard]
    simp only [hsel]
    split <;> rfl
  rw [hcl]
  refine ⟨List.sublist_append_left _ _, by simp, ?_⟩
  obtain ⟨hlen, hnd⟩ := hinv
  have hperm := select_perm hsel
  have hpermc : (s.searchState.openList ++ s.searchState.closedList).Perm
      (next :: (rest ++ s.searchState.closedList)) :=
    List.Perm.append_right _ hperm
  have hnd2 : ((next :: (rest ++ s.searchState.closedList)).map
      (fun st2 => st2.board)).Nodup :=
    ((hpermc.map _).nodup_iff).mp hnd
  rw [List.map_cons, List.nodup_cons, List.map_append,
    List.nodup_append] at hnd2
  rw [List.map_append, List.nodup_append]
  refine ⟨hnd2.2.2.1, by simp, ?_⟩
  intro x hx hx2
  simp only [List.map_cons, List.map_nil, List.mem_singleton] at hx2
  subst hx2
  exact hnd2.1 (List.mem_append.mpr (Or.inr hx))

/-- C6: for every variant and every reachable non-terminal session, one
step leaves the previous visited/closed collection as a sublist of the
new one and grows its size by exactly one; for the puzzle the closed
boards stay pairwise distinct, so the set size also grows by one. -/
theorem C6_step_visited_growth :
    (∀ s s' : DFS.Session, DFS.Reachable s →
      ¬ (s.state.stack.length = 0 ∨ s.isComplete = true) →
      DFS.step s = some s' →
      s.state.visited.Sublist s'.state.visited ∧
        s'.state.visited.length = s.state.visited.length + 1) ∧
    (∀ (limit : Nat) (s s' : DLS.Session), DLS.Reachable limit s →
      ¬ (s.state.stack.length = 0 ∨ s.isComplete = true) →
      DLS.step limit s = some s' →
      s.state.visited.Sublist s'.state.visited ∧
        s'.state.visited.length = s.state.visited.length + 1) ∧
    (∀ s s' : UCS.Session, UCS.Reachable s →
      ¬ (s.state.priorityQueue.length = 0 ∨ s.isComplete = true) →
      UCS.step s = some s' →
      s.state.visited.Sublist s'.state.visited ∧
        s'.state.visited.length = s.state.visited.length + 1) ∧
    (∀ (board0 : List Nat) (alg : Puzzle.Alg) (s : Puzzle.Session)
      (next : Puzzle.PuzzleState) (rest : List Puzzle.PuzzleState),
      board0.length = 9 → Puzzle.Reachable board0 alg s →
      ¬ (s.searchState.openList.length = 0 ∨ s.isComplete = true) →
      Puzzle.select s.searchState.algorithm s.searchState.openList =
        some (next, rest) →
      s.searchState.closedList.Sublist
          (Puzzle.step s).searchState.closedList ∧
        (Puzzle.step s).searchState.closedList.length =
          s.searchState.closedList.length + 1 ∧
        ((Puzzle.step s).searchState.closedList.map
            (fun st2 => st2.board)).Nodup) := by
  refine ⟨?_, ?_, ?_, ?_⟩
  · intro s s' hr hg hstep
    exact dfs_step_growth (dfs_reachable_inv hr) hg hstep
  · intro limit s s' hr hg hstep
    exact dls_step_growth (dls_reachable_inv hr) hg hstep
  · intro s s' hr hg hstep
    exact ucs_step_growth (ucs_reachable_inv hr) hg hstep
  · intro board0 alg s next rest hb hr hg hsel
    exact puzzle_step_growth (puzzle_reachable_inv hb hr) hg hsel

/-- Witness for C6 on the first DFS step. -/
theorem C6_step_visited_growth_witness :
    DFS.initSession.state.visited.Sublist
        (⟨⟨["A"], ["C", "B"], some "A", ["A"], 1⟩, false, false⟩ :
          DFS.Session).state.visited ∧
      (⟨⟨["A"], ["C", "B"], some "A", ["A"], 1⟩, false, false⟩ :
          DFS.Session).state.visited.length =
        DFS.initSession.state.visited.length + 1 :=
  C6_step_visited_growth.1 DFS.initSession
    ⟨⟨["A"], ["C", "B"], some "A", ["A"], 1⟩, false, false⟩
    DFS.Reachable.init (by decide) (by decide)

/-- C7: in every reachable session of every variant, a node id or board
occurs at most once across the frontier and the visited/closed set taken
together. -/
theorem C7_dedup_invariant :
    (∀ s : DFS.Session, DFS.Reachable s →
      s.state.stack.Nodup ∧ (∀ x ∈ s.state.stack, x ∉ s.state.visited) ∧
        s.state.visited.Nodup) ∧
    (∀ (limit : Nat) (s : DLS.Session), DLS.Reachable limit s →
      (s.state.stack.map (fun it => it.nodeId)).Nodup ∧
        (∀ it ∈ s.state.stack, it.nodeId ∉ s.state.visited) ∧
        s.state.visited.Nodup) ∧
    (∀ s : UCS.Session, UCS.Reachable s →
      (s.state.priorityQueue.map (fun it => it.nodeId)).Nodup ∧
        (∀ it ∈ s.state.priorityQueue, it.nodeId ∉ s.state.visited) ∧
        s.state.visited.Nodup) ∧
    (∀ (board0 : List Nat) (alg : Puzzle.Alg) (s : Puzzle.Session),
      board0.length = 9 → Puzzle.Reachable board0 alg s →
      ((s.searchState.openList ++ s.searchState.closedList).map
          (fun st2 => st2.board)).Nodup) :=
  ⟨fun _ h => dfs_reachable_inv h, fun _ _ h => dls_reachable_inv h,
    fun _ h => ucs_reachable_inv h,
    fun _ _ _ hb h => (puzzle_reachable_inv hb h).2⟩

/-- Witness for C7 at the fresh DFS session. -/
theorem C7_dedup_invariant_witness : DFS.initSession.state.stack.Nodup :=
  (C7_dedup_invariant.1 DFS.initSession DFS.Reachable.init).1
